import Mathlib

/-!
Verification of the `sora` plugin host

Shallow embedding of the plugin manager, stage planner and dispatcher from
`src/src/lib.rs`, together with a model of the external collaborators the
core relies on:

* the `petgraph` directed graph and its `toposort` (stack-based depth-first
  search with cycle detection; its observable behavior is pinned by the
  repository's own tests: the `cycle` test expects `Cycle(NodeIndex(1))`
  and the `smoke` test expects output `"A\nB\n"`),
* the `libloading` dynamic-library boundary (a module either yields a
  handle or not, and either exports a named symbol or not).

Rust panics (`HashMap` indexing on a missing key, `Vec::remove` out of
bounds, `Result::unwrap` on a toposort error) are modelled as explicit
error values of the corresponding operation, so that "the code panics
here" is an inspectable outcome of the model.
-/

namespace Sora

/-- A loaded plugin instance.  `run` is an opaque action tag: executing the
plugin's action is modelled as emitting this tag to a trace, which lets the
model distinguish two instances that share a name. -/
structure Plugin where
  name : String
  deps : List String
  run : Nat
  deriving DecidableEq, Repr

/-! The petgraph model.

`DiGraph<&str, ()>`: nodes are identified by insertion index; the node
weight is the plugin name.  `add_edge` prepends to the edge list because
petgraph iterates a node's outgoing edges most-recently-added first. -/

structure Graph where
  nodes : List String
  edges : List (Nat × Nat)
  deriving DecidableEq, Repr

def emptyGraph : Graph := ⟨[], []⟩

/-- Outgoing neighbors of node `a`, in petgraph's iteration order
(reverse order of edge insertion, which `Graph.edges` already stores). -/
def Graph.nbrs (g : Graph) (a : Nat) : List Nat :=
  (g.edges.filter (fun e => e.1 == a)).map (·.2)

/-- The closure `node` in `into_dispatcher`: look the name up in
`node_indices`, adding a fresh node when absent. -/
def Graph.getOrAddNode (g : Graph) (name : String) : Graph × Nat :=
  match g.nodes.findIdx? (· == name) with
  | some i => (g, i)
  | none => ({ g with nodes := g.nodes ++ [name] }, g.nodes.length)

/-- Body of the dependency loop of `into_dispatcher`: add the node for one
declared dependency and one edge from it to the plugin's node `master`. -/
def Graph.addDep (master : Nat) (g : Graph) (dep : String) : Graph :=
  let (g, d) := g.getOrAddNode dep
  { g with edges := (d, master) :: g.edges }

/-- One iteration of the graph-building loop of `into_dispatcher`: add the
plugin's own node, then one edge per declared dependency, each edge from
the dependency's node to the plugin's node. -/
def Graph.addPlugin (g : Graph) (p : Plugin) : Graph :=
  let (g, master) := g.getOrAddNode p.name
  p.deps.foldl (Graph.addDep master) g

def buildGraph (ps : List Plugin) : Graph :=
  ps.foldl Graph.addPlugin emptyGraph

/-! State machine for petgraph `toposort`.

State of the explicit DFS stack machine.  `stack` has its top at the head.
`out` is the chronological finish list (`toposort` returns its reverse).
The `Nat` in the error position is the node reported by `Cycle(n)`. -/

structure St where
  stack : List Nat
  disc : List Nat
  fin : List Nat
  out : List Nat
  deriving DecidableEq, Repr

/-- The inner `while let Some(&nx) = dfs.stack.last()` loop, with fuel.
`none` means the fuel ran out (shown unreachable for the fuel used by
`toposort`).  Faithful to petgraph:

* an undiscovered top is marked discovered, a self edge reports
  `Cycle(nx)`, and its still-undiscovered successors are pushed in
  iteration order (so the last-pushed is processed first);
* a discovered top is popped; on its first pop it is marked finished and
  any not-yet-finished successor reports `Cycle(nx)`, otherwise it is
  appended to the finish list. -/
def dfsLoop (g : Graph) : Nat → St → Option (Except Nat St)
  | 0, _ => none
  | fuel + 1, s =>
    match s.stack with
    | [] => some (.ok s)
    | nx :: rest =>
      if nx ∈ s.disc then
        if nx ∈ s.fin then
          dfsLoop g fuel { s with stack := rest }
        else if (g.nbrs nx).any (fun i => !(nx :: s.fin).contains i) then
          some (.error nx)
        else
          dfsLoop g fuel { stack := rest, disc := s.disc, fin := nx :: s.fin,
                           out := s.out ++ [nx] }
      else
        if (g.nbrs nx).any (· == nx) then
          some (.error nx)
        else
          dfsLoop g fuel
            { s with
              stack := ((g.nbrs nx).filter (fun i => !(nx :: s.disc).contains i)).reverse
                         ++ s.stack,
              disc := nx :: s.disc }

/-- The outer `for i in g.node_identifiers()` loop: start a DFS from every
not-yet-discovered node, in node-index order. -/
def runRoots (g : Graph) (fuel : Nat) : List Nat → St → Option (Except Nat St)
  | [], s => some (.ok s)
  | i :: roots, s =>
    if i ∈ s.disc then runRoots g fuel roots s
    else
      match dfsLoop g fuel { s with stack := [i] } with
      | none => none
      | some (.error nx) => some (.error nx)
      | some (.ok s') => runRoots g fuel roots s'

/-- Fuel that provably suffices for `dfsLoop` (see `dfsLoop_isSome`). -/
def topoFuel (g : Graph) : Nat :=
  2 * (g.edges.length + 1) * (g.nodes.length + 1) + 3

/-- Model of `petgraph::algo::toposort(&graph, None)`.  Here `.error nx` is
`Err(Cycle(nx))`; the `.error 0` fallback in the `none` branch is dead code
(`runRoots_topoFuel_isSome` below), present only because `dfsLoop` is
written with fuel. -/
def toposort (g : Graph) : Except Nat (List Nat) :=
  match runRoots g (topoFuel g) (List.range g.nodes.length) ⟨[], [], [], []⟩ with
  | none => .error 0
  | some (.error nx) => .error nx
  | some (.ok s) => .ok s.out.reverse

/-! Loader boundary (`libloading` + `Native::load`)

A native module either yields a library handle or not (`Library::new`),
and exports a set of symbols (`library.get`).  `makes` is the plugin the
module's `create_plugin` entry point would construct. -/

inductive PluginLoadError where
  | library
  | plugin
  deriving DecidableEq, Repr

structure Module where
  loadOk : Bool
  symbols : List String
  makes : Plugin
  deriving DecidableEq, Repr

/-- Model of `Native::load`: obtain the library handle (failing with
`PluginLoadError::Library`), then resolve exactly the symbol
`"create_plugin"` in it (failing with `PluginLoadError::Plugin`). -/
def nativeLoad (m : Module) : Except PluginLoadError (Module × Plugin) :=
  if !m.loadOk then .error .library
  else if "create_plugin" ∈ m.symbols then .ok (m, m.makes)
  else .error .plugin

/-- The bundled hello-world plugin module
(`src/plugins/hello-world/src/lib.rs`): it loads fine but its constructor
is exported under the name `"plugin_create"`, not `"create_plugin"`. -/
def helloWorldModule : Module :=
  { loadOk := true
    symbols := ["plugin_create"]
    makes := { name := "Hello", deps := [], run := 0 } }

/-! The plugin manager. -/

structure Manager where
  plugins : List Plugin
  nameIdx : List (String × Nat)
  libraries : List Nat
  deriving DecidableEq, Repr

def emptyManager : Manager := ⟨[], [], []⟩

/-- Lookup in the `AHashMap`: the most recent insert for a name wins
(`nameIdx` stores the most recent insert at the head). -/
def lookupName (idx : List (String × Nat)) (name : String) : Option Nat :=
  (idx.find? (fun e => e.1 == name)).map (·.2)

/-- Model of `PluginManager::load_plugin`, abstracted over the loader outcome `r`
(the `L::load(filename)` call): on error the manager is returned
untouched; on success the name is (re-)bound to the new slot and the
instance and the module handle are appended. -/
def loadPlugin (m : Manager) (r : Except PluginLoadError (Nat × Plugin)) :
    Manager × Option PluginLoadError :=
  match r with
  | .error e => (m, some e)
  | .ok (lib, p) =>
    ({ plugins := m.plugins ++ [p]
       nameIdx := (p.name, m.plugins.length) :: m.nameIdx
       libraries := m.libraries ++ [lib] }, none)

/-- The manager obtained by loading the given plugins in order, every load
succeeding (the module handles are numbered by load order). -/
def mkManager (ps : List Plugin) : Manager :=
  (ps.enum.foldl (fun m p => (loadPlugin m (.ok (p.1, p.2))).1) emptyManager)

/-! Stage planning and the `Dispatcher` -/

/-- How a run of `into_dispatcher` can panic.  `cyclicDependency` is the
`unwrap` of the toposort result; `missingName` is `self.name_of_plugin[...]`
indexing a name absent from the map; `indexOutOfBounds` is
`self.plugins.remove(index)` with `index` out of range. -/
inductive PlanError where
  | cyclicDependency (nx : Nat)
  | missingName (name : String)
  | indexOutOfBounds (idx : Nat)
  deriving DecidableEq, Repr

structure Dispatcher where
  stages : List (List Plugin)
  libraries : List Nat
  deriving DecidableEq, Repr

instance : Inhabited Plugin := ⟨⟨"", [], 0⟩⟩

/-- The stage-building loop of `into_dispatcher`: for each toposorted node,
look its name up in `name_of_plugin`, `Vec::remove` the plugin at the
stored index, and append a singleton stage. -/
def buildStages (idx : List (String × Nat)) (g : Graph) :
    List Nat → List Plugin → List (List Plugin) →
    Except PlanError (List (List Plugin))
  | [], _, stages => .ok stages
  | node :: order, plugins, stages =>
    match (g.nodes.get? node).bind (lookupName idx) with
    | none =>
      .error (.missingName ((g.nodes.get? node).getD ""))
    | some i =>
      if i < plugins.length then
        buildStages idx g order (plugins.eraseIdx i)
          (stages ++ [[plugins.getD i default]])
      else
        .error (.indexOutOfBounds i)

/-- Model of `PluginManager::into_dispatcher`: build the dependency graph, toposort
it (panicking on a cycle), then assemble one singleton stage per node in
topological order. -/
def intoDispatcher (m : Manager) : Except PlanError Dispatcher :=
  let g := buildGraph m.plugins
  match toposort g with
  | .error nx => .error (.cyclicDependency nx)
  | .ok order =>
    match buildStages m.nameIdx g order m.plugins [] with
    | .error e => .error e
    | .ok stages => .ok { stages := stages, libraries := m.libraries }

/-- Model of `Dispatcher::dispatch`: run every stage in order and, inside a stage,
every plugin in order; the trace records each executed action. -/
def dispatch (d : Dispatcher) : List Nat :=
  d.stages.foldl (fun acc stage => stage.foldl (fun acc p => acc ++ [p.run]) acc) []

/-- Model of `Dispatcher::dispatch_par`: stages are still strictly ordered, but the
actions inside one stage run on the worker pool, so only the per-stage
multiset of actions is observable. -/
def dispatchPar (d : Dispatcher) : List (Multiset Nat) :=
  d.stages.map (fun stage => ((stage.map (·.run) : List Nat) : Multiset Nat))

/-! Specification-level relations.

The declared dependency relation on plugin names, its transitive closure,
and the corresponding notions on graph node indices. -/

/-- Name `a` is a declared dependency of the plugin named `b`:
"`b` must run after `a`". -/
def DepEdge (ps : List Plugin) (a b : String) : Prop :=
  ∃ p ∈ ps, p.name = b ∧ a ∈ p.deps

/-- Nonempty path in the declared dependency relation. -/
inductive DepPath (ps : List Plugin) : String → String → Prop
  | single {a b} : DepEdge ps a b → DepPath ps a b
  | cons {a b c} : DepEdge ps a b → DepPath ps b c → DepPath ps a c

/-- Name `a` lies on a dependency cycle. -/
def DepCycle (ps : List Plugin) (a : String) : Prop :=
  DepPath ps a a

/-- Edge between node indices of the built graph. -/
def EdgeG (g : Graph) (u v : Nat) : Prop :=
  (u, v) ∈ g.edges

/-- Nonempty edge path between node indices. -/
inductive GPath (g : Graph) : Nat → Nat → Prop
  | single {u v} : EdgeG g u v → GPath g u v
  | cons {u v w} : EdgeG g u v → GPath g v w → GPath g u w

/-- Node index `x` lies on a cycle of the graph. -/
def OnCycleG (g : Graph) (x : Nat) : Prop :=
  GPath g x x

def HasCycleG (g : Graph) : Prop :=
  ∃ x, OnCycleG g x

/-- Well-formed graph: every edge endpoint is a node index. -/
def Graph.WF (g : Graph) : Prop :=
  ∀ e ∈ g.edges, e.1 < g.nodes.length ∧ e.2 < g.nodes.length

/-! Invariants of the DFS stack machine.

The stack (top first) decomposes into segments separated by the chain of
"gray" nodes (discovered, not yet finished), most recently discovered
first: `stack = A_k ++ g_k :: A_(k-1) ++ g_(k-1) :: ... ++ g_1 :: A_0`.
`SegChain g disc fin upper stack chain` describes the part of the stack
below the chain elements listed in `upper`. -/

inductive SegChain (g : Graph) (disc fin : List Nat) :
    List Nat → List Nat → List Nat → Prop
  | base (upper A : List Nat)
      (hA : ∀ x ∈ A, x ∉ disc ∨ x ∈ fin ∨ x ∈ upper) :
      SegChain g disc fin upper A []
  | cons (upper A : List Nat) (gk : Nat) (tail ch : List Nat)
      (hgd : gk ∈ disc) (hgf : gk ∉ fin) (hgu : gk ∉ upper)
      (hA : ∀ x ∈ A, (x ∉ disc ∧ EdgeG g gk x) ∨ x ∈ fin ∨ x ∈ upper)
      (hnb : ∀ y ∈ g.nbrs gk, y ∈ disc ∨ y ∈ A)
      (hedge : ∀ g0, ch.head? = some g0 → EdgeG g g0 gk)
      (hrest : SegChain g disc fin (gk :: upper) tail ch) :
      SegChain g disc fin upper (A ++ gk :: tail) (gk :: ch)

/-- Consecutive chain elements are linked by an edge, pointing from the
older gray node to the younger one. -/
def ChEdges (g : Graph) : List Nat → Prop
  | [] => True
  | [_] => True
  | a :: b :: t => EdgeG g b a ∧ ChEdges g (b :: t)

/-- Elements finished so far list their successors no later than
themselves. -/
def ChronoOk (g : Graph) (l : List Nat) : Prop :=
  ∀ p x q, l = p ++ x :: q → ∀ y ∈ g.nbrs x, y ∈ p ∨ y = x

/-- The master invariant of the DFS state. -/
structure Inv (g : Graph) (s : St) : Prop where
  fin_disc : ∀ x ∈ s.fin, x ∈ s.disc
  out_nodup : s.out.Nodup
  out_fin : ∀ x, x ∈ s.out ↔ x ∈ s.fin
  fin_closed : ∀ x ∈ s.fin, ∀ y ∈ g.nbrs x, y ∈ s.fin
  no_self : ∀ x ∈ s.disc, ¬ EdgeG g x x
  chrono : ChronoOk g s.out
  disc_lt : ∀ x ∈ s.disc, x < g.nodes.length
  stack_lt : ∀ x ∈ s.stack, x < g.nodes.length
  chain : ∃ ch, SegChain g s.disc s.fin [] s.stack ch ∧
    ∀ x ∈ s.disc, x ∉ s.fin → x ∈ ch

/-- Termination potential of a DFS state. -/
def pot (g : Graph) (s : St) : Nat :=
  2 * s.stack.length +
    2 * (g.edges.length + 1) *
      ((Finset.range g.nodes.length).filter (fun v => v ∉ s.disc)).card + 1

/-! Concrete scenarios from the specification and the repository tests. -/

/-- Scenario of the repository's `smoke` test: load `B` (depending on
`"A"`, action tag 2), then `A` (action tag 1). -/
def mSmoke : Manager := mkManager [⟨"B", ["A"], 2⟩, ⟨"A", [], 1⟩]

/-- Scenario of the repository's `cycle` test: `A` depends on `"B"` and
`B` depends on `"A"`, loaded in order `A`, `B`. -/
def mCycle : Manager := mkManager [⟨"A", ["B"], 1⟩, ⟨"B", ["A"], 2⟩]

/-- Scenario C of the specification: three independent plugins, loaded in
order `A`, `B`, `C` with action tags 1, 2, 3. -/
def mThree : Manager := mkManager [⟨"A", [], 1⟩, ⟨"B", [], 2⟩, ⟨"C", [], 3⟩]

/-- An acyclic load order on which stage planning panics: `A` and `B`
independent, `C` depending on `"A"`, loaded in order `A`, `B`, `C`. -/
def mBug : Manager := mkManager [⟨"A", [], 1⟩, ⟨"B", [], 2⟩, ⟨"C", ["A"], 3⟩]

/-- Scenario D of the specification: a single plugin `A` depending on the
never-loaded name `"Z"`. -/
def mPhantom : Manager := mkManager [⟨"A", ["Z"], 1⟩]

/-- Duplicate-name scenario: `X`, then `Y` depending on `"X"`, then two
plugins both named `Z` (action tags 3 and 4; the instance with tag 3 is
the one orphaned by the name overwrite). -/
def mDup : Manager :=
  mkManager [⟨"X", [], 1⟩, ⟨"Y", ["X"], 2⟩, ⟨"Z", [], 3⟩, ⟨"Z", [], 4⟩]

/-! Theorems.  Basic lemmas about neighbors, paths and chains. -/

theorem mem_nbrs {g : Graph} {u v : Nat} : v ∈ g.nbrs u ↔ EdgeG g u v := by
  simp only [Graph.nbrs, List.mem_map, List.mem_filter, EdgeG]
  constructor
  · rintro ⟨⟨a, b⟩, ⟨hmem, heq⟩, rfl⟩
    simp only [beq_iff_eq] at heq
    simpa [heq] using hmem
  · intro h
    exact ⟨(u, v), ⟨h, by simp⟩, rfl⟩

theorem nbrs_length_le {g : Graph} (u : Nat) :
    (g.nbrs u).length ≤ g.edges.length := by
  simpa [Graph.nbrs] using List.length_filter_le _ g.edges

theorem nbrs_lt_of_wf {g : Graph} (hWF : g.WF) {u v : Nat} (h : v ∈ g.nbrs u) :
    v < g.nodes.length :=
  (hWF _ (mem_nbrs.1 h)).2

theorem gpath_snoc {g : Graph} {u v w : Nat} (h : GPath g u v) (e : EdgeG g v w) :
    GPath g u w := by
  induction h with
  | single h1 => exact .cons h1 (.single e)
  | cons h1 _ ih => exact .cons h1 (ih e)

theorem chedges_reach {g : Graph} :
    ∀ {t : List Nat} {a : Nat}, ChEdges g (a :: t) →
      ∀ y ∈ a :: t, y = a ∨ GPath g y a := by
  intro t
  induction t with
  | nil => intro a _ y hy; left; simpa using hy
  | cons b t ih =>
    intro a hce y hy
    obtain ⟨hba, hbt⟩ : EdgeG g b a ∧ ChEdges g (b :: t) := hce
    rcases List.mem_cons.1 hy with rfl | hy'
    · exact .inl rfl
    · rcases ih hbt y hy' with rfl | hp
      · exact .inr (.single hba)
      · exact .inr (gpath_snoc hp hba)

theorem append_cons_eq_cons {A tail : List Nat} {gk x : Nat} {st : List Nat}
    (h : A ++ gk :: tail = x :: st) :
    (A = [] ∧ gk = x ∧ tail = st) ∨ ∃ A', A = x :: A' ∧ st = A' ++ gk :: tail := by
  cases A with
  | nil => exact .inl ⟨rfl, by simpa using h⟩
  | cons a A' =>
    simp only [List.cons_append, List.cons.injEq] at h
    exact .inr ⟨A', by simp [h.1], h.2.symm⟩

theorem snoc_eq_append_cons {out p q : List Nat} {nx x : Nat}
    (h : out ++ [nx] = p ++ x :: q) :
    (q = [] ∧ p = out ∧ x = nx) ∨ ∃ q', q = q' ++ [nx] ∧ out = p ++ x :: q' := by
  rcases q.eq_nil_or_concat with rfl | ⟨q', b, rfl⟩
  · obtain ⟨h1, h2⟩ := List.append_inj' h rfl
    exact .inl ⟨rfl, h1.symm, by simpa using h2.symm⟩
  · simp only [List.concat_eq_append] at h ⊢
    rw [show p ++ x :: (q' ++ [b]) = (p ++ x :: q') ++ [b] by simp] at h
    obtain ⟨h1, h2⟩ := List.append_inj' h rfl
    simp only [List.cons.injEq] at h2
    exact .inr ⟨q', by simp [h2], h1⟩

theorem chrono_append {g : Graph} {out : List Nat} {nx : Nat}
    (hch : ChronoOk g out) (hnb : ∀ y ∈ g.nbrs nx, y ∈ out ∨ y = nx) :
    ChronoOk g (out ++ [nx]) := by
  intro p x q hsplit y hy
  rcases snoc_eq_append_cons hsplit with ⟨rfl, rfl, rfl⟩ | ⟨q', rfl, hout⟩
  · exact hnb y hy
  · exact hch p x q' hout y hy

/-! Lemmas about the gray-chain decomposition of the DFS stack. -/

theorem seg_mem_congr {g : Graph} {d f : List Nat} {u st ch : List Nat}
    (h : SegChain g d f u st ch) :
    ∀ {u' : List Nat}, (∀ x, x ∈ u ↔ x ∈ u') → SegChain g d f u' st ch := by
  induction h with
  | base upper A hA =>
    intro u' hu
    refine .base u' A fun x hx => ?_
    rcases hA x hx with h1 | h2 | h3
    · exact .inl h1
    · exact .inr (.inl h2)
    · exact .inr (.inr ((hu x).1 h3))
  | cons upper A gk tail ch hgd hgf hgu hA hnb hedge hrest ih =>
    intro u' hu
    refine .cons u' A gk tail ch hgd hgf (fun hc => hgu ((hu gk).2 hc)) ?_ hnb hedge
      (ih fun x => by simp only [List.mem_cons]; rw [hu x])
    intro x hx
    rcases hA x hx with h1 | h2 | h3
    · exact .inl h1
    · exact .inr (.inl h2)
    · exact .inr (.inr ((hu x).1 h3))

theorem seg_upper_grow {g : Graph} {d f : List Nat} {z : Nat} {u st ch : List Nat}
    (hz : z ∉ d) (h : SegChain g d f u st ch) :
    SegChain g (z :: d) f (z :: u) st ch := by
  induction h with
  | base upper A hA =>
    refine .base _ A fun x hx => ?_
    rcases hA x hx with h1 | h2 | h3
    · by_cases hxz : x = z
      · exact .inr (.inr (by simp [hxz]))
      · exact .inl (by simp [hxz, h1])
    · exact .inr (.inl h2)
    · exact .inr (.inr (by simp [h3]))
  | cons upper A gk tail ch hgd hgf hgu hA hnb hedge hrest ih =>
    refine .cons _ A gk tail ch (by simp [hgd]) hgf ?_ ?_ ?_ hedge
      (seg_mem_congr ih fun x => by simp only [List.mem_cons]; tauto)
    · simp only [List.mem_cons, not_or]
      exact ⟨fun hgz => hz (hgz ▸ hgd), hgu⟩
    · intro x hx
      rcases hA x hx with ⟨h1, h1e⟩ | h2 | h3
      · by_cases hxz : x = z
        · exact .inr (.inr (by simp [hxz]))
        · exact .inl ⟨by simp [hxz, h1], h1e⟩
      · exact .inr (.inl h2)
      · exact .inr (.inr (by simp [h3]))
    · intro y hy
      rcases hnb y hy with h1 | h2
      · exact .inl (by simp [h1])
      · exact .inr h2

theorem seg_fin_of_upper {g : Graph} {d f : List Nat} {u0 : Nat} {u st ch : List Nat}
    (h : SegChain g d f u st ch) :
    u0 ∈ u → SegChain g d (u0 :: f) u st ch := by
  induction h with
  | base upper A hA =>
    intro _
    refine .base _ A fun x hx => ?_
    rcases hA x hx with h1 | h2 | h3
    · exact .inl h1
    · exact .inr (.inl (by simp [h2]))
    · exact .inr (.inr h3)
  | cons upper A gk tail ch hgd hgf hgu hA hnb hedge hrest ih =>
    intro hu0
    refine .cons _ A gk tail ch hgd ?_ hgu ?_ hnb hedge (ih (by simp [hu0]))
    · simp only [List.mem_cons, not_or]
      exact ⟨fun he => hgu (he ▸ hu0), hgf⟩
    · intro x hx
      rcases hA x hx with ⟨h1, h1e⟩ | h2 | h3
      · exact .inl ⟨h1, h1e⟩
      · exact .inr (.inl (by simp [h2]))
      · exact .inr (.inr h3)

theorem seg_upper_drop {g : Graph} {d f : List Nat} {u0 : Nat} {u st ch : List Nat}
    (hu0f : u0 ∈ f) (h : SegChain g d f u st ch) :
    ∀ U1 U2, u = U1 ++ u0 :: U2 → SegChain g d f (U1 ++ U2) st ch := by
  induction h with
  | base upper A hA =>
    rintro U1 U2 rfl
    refine .base _ A fun x hx => ?_
    rcases hA x hx with h1 | h2 | h3
    · exact .inl h1
    · exact .inr (.inl h2)
    · rcases List.mem_append.1 h3 with h4 | h4
      · exact .inr (.inr (List.mem_append.2 (.inl h4)))
      · rcases List.mem_cons.1 h4 with rfl | h5
        · exact .inr (.inl hu0f)
        · exact .inr (.inr (List.mem_append.2 (.inr h5)))
  | cons upper A gk tail ch hgd hgf hgu hA hnb hedge hrest ih =>
    rintro U1 U2 rfl
    refine .cons _ A gk tail ch hgd hgf ?_ ?_ hnb hedge (ih (gk :: U1) U2 rfl)
    · intro hc
      refine hgu ?_
      rcases List.mem_append.1 hc with h4 | h4
      · exact List.mem_append.2 (.inl h4)
      · exact List.mem_append.2 (.inr (by simp [h4]))
    · intro x hx
      rcases hA x hx with h1 | h2 | h3
      · exact .inl h1
      · exact .inr (.inl h2)
      · rcases List.mem_append.1 h3 with h4 | h4
        · exact .inr (.inr (List.mem_append.2 (.inl h4)))
        · rcases List.mem_cons.1 h4 with rfl | h5
          · exact .inr (.inl hu0f)
          · exact .inr (.inr (List.mem_append.2 (.inr h5)))

theorem seg_chedges {g : Graph} {d f : List Nat} {u st ch : List Nat}
    (h : SegChain g d f u st ch) : ChEdges g ch := by
  induction h with
  | base => trivial
  | cons upper A gk tail ch hgd hgf hgu hA hnb hedge hrest ih =>
    cases ch with
    | nil => trivial
    | cons g0 t => exact ⟨hedge g0 rfl, ih⟩

theorem seg_pop_fin {g : Graph} {d f : List Nat} {x : Nat} {st ch : List Nat}
    (hfd : ∀ z ∈ f, z ∈ d) (hx : x ∈ f)
    (h : SegChain g d f [] (x :: st) ch) : SegChain g d f [] st ch := by
  generalize hstk : x :: st = stk at h
  cases h with
  | base _ A hA =>
    refine .base _ st fun y hy => ?_
    exact hA y (by rw [← hstk]; exact List.mem_cons_of_mem x hy)
  | cons _ A gk tail ch hgd hgf hgu hA hnb hedge hrest =>
    rcases append_cons_eq_cons hstk.symm with ⟨rfl, rfl, rfl⟩ | ⟨A', rfl, rfl⟩
    · exact absurd hx hgf
    · refine .cons _ A' gk tail ch hgd hgf hgu
        (fun y hy => hA y (List.mem_cons_of_mem x hy)) ?_ hedge hrest
      intro y hy
      rcases hnb y hy with h1 | h2
      · exact .inl h1
      · rcases List.mem_cons.1 h2 with rfl | h3
        · exact .inl (hfd y hx)
        · exact .inr h3

theorem seg_gray_top {g : Graph} {d f : List Nat} {nx : Nat} {rest ch : List Nat}
    (hnd : nx ∈ d) (hnf : nx ∉ f)
    (h : SegChain g d f [] (nx :: rest) ch) :
    ∃ ch', ch = nx :: ch' ∧ SegChain g d f [nx] rest ch' ∧
      (∀ y ∈ g.nbrs nx, y ∈ d) := by
  generalize hstk : nx :: rest = stk at h
  cases h with
  | base _ A hA =>
    rcases hA nx (by rw [← hstk]; simp) with h1 | h2 | h3
    · exact absurd hnd h1
    · exact absurd h2 hnf
    · exact absurd h3 (by simp)
  | cons _ A gk tail ch hgd hgf hgu hA hnb hedge hrest =>
    rcases append_cons_eq_cons hstk.symm with ⟨rfl, rfl, rfl⟩ | ⟨A', rfl, _⟩
    · exact ⟨ch, rfl, hrest, fun y hy => (hnb y hy).resolve_right (by simp)⟩
    · rcases hA nx (by simp) with ⟨h1, _⟩ | h2 | h3
      · exact absurd hnd h1
      · exact absurd h2 hnf
      · exact absurd h3 (by simp)

theorem contains_iff {l : List Nat} {a : Nat} : l.contains a = true ↔ a ∈ l := by
  simp [List.contains, List.elem_iff]

theorem not_contains_iff {l : List Nat} {a : Nat} : (!l.contains a) = true ↔ a ∉ l := by
  simp

theorem contains_eq_decide (l : List Nat) (a : Nat) : l.contains a = decide (a ∈ l) := by
  by_cases h : a ∈ l
  · simp [h, contains_iff]
  · rw [decide_eq_false h, Bool.eq_false_iff]
    exact fun hc => h (contains_iff.1 hc)

theorem filter_pred_eq (nx : Nat) (disc : List Nat) (i : Nat) :
    (!(nx :: disc).contains i) = (!decide (i = nx) && !decide (i ∈ disc)) := by
  rw [contains_eq_decide]
  by_cases h1 : i = nx <;> by_cases h2 : i ∈ disc <;> simp [h1, h2]

theorem seg_discover {g : Graph} {d f : List Nat} {nx : Nat} {rest ch : List Nat}
    (hnd : nx ∉ d) (hfd : ∀ z ∈ f, z ∈ d)
    (h : SegChain g d f [] (nx :: rest) ch) :
    SegChain g (nx :: d) f []
      (((g.nbrs nx).filter (fun i => !(nx :: d).contains i)).reverse ++ nx :: rest)
      (nx :: ch) := by
  have hnf : nx ∉ f := fun hc => hnd (hfd nx hc)
  have hpush : ∀ x, x ∈ ((g.nbrs nx).filter (fun i => !(nx :: d).contains i)).reverse →
      (x ∉ nx :: d ∧ EdgeG g nx x) ∨ x ∈ f ∨ x ∈ ([] : List Nat) := by
    intro x hx
    have hm := List.mem_filter.1 (List.mem_reverse.1 hx)
    exact .inl ⟨not_contains_iff.1 hm.2, mem_nbrs.1 hm.1⟩
  have hnbr : ∀ y ∈ g.nbrs nx, y ∈ nx :: d ∨
      y ∈ ((g.nbrs nx).filter (fun i => !(nx :: d).contains i)).reverse := by
    intro y hy
    by_cases hyd : y ∈ nx :: d
    · exact .inl hyd
    · exact .inr (List.mem_reverse.2 (List.mem_filter.2 ⟨hy, not_contains_iff.2 hyd⟩))
  generalize hstk : nx :: rest = stk at h
  cases h with
  | base _ A hA =>
    subst hstk
    refine .cons [] _ nx rest [] (by simp) hnf (by simp) hpush hnbr
      (by intro g0 h0; exact absurd h0 (by simp)) ?_
    refine .base _ rest fun x hx => ?_
    rcases hA x (List.mem_cons_of_mem _ hx) with h1 | h2 | h3
    · by_cases hxz : x = nx
      · exact .inr (.inr (by simp [hxz]))
      · exact .inl (by simp [hxz, h1])
    · exact .inr (.inl h2)
    · exact absurd h3 (by simp)
  | cons _ A gk tail ch0 hgd hgf hgu hA hnb hedge hrest =>
    rcases append_cons_eq_cons hstk.symm with ⟨rfl, rfl, rfl⟩ | ⟨A', rfl, hrest_eq⟩
    · exact absurd hgd hnd
    · have hedge_gk : EdgeG g gk nx := by
        rcases hA nx (by simp) with ⟨_, he⟩ | h2 | h3
        · exact he
        · exact absurd h2 hnf
        · exact absurd h3 (by simp)
      refine .cons [] _ nx (A' ++ gk :: tail) (gk :: ch0) (by simp) hnf (by simp)
        hpush hnbr ?_ ?_
      · intro g0 h0
        simp only [List.head?_cons, Option.some.injEq] at h0
        exact h0 ▸ hedge_gk
      · refine .cons [nx] A' gk tail ch0 (by simp [hgd]) hgf ?_ ?_ ?_ hedge
          (seg_mem_congr (seg_upper_grow hnd hrest)
            fun x => by simp only [List.mem_cons]; tauto)
        · simp only [List.mem_cons, List.not_mem_nil, or_false]
          exact fun he => hnd (he ▸ hgd)
        · intro x hx
          rcases hA x (by simp [hx]) with ⟨h1, h1e⟩ | h2 | h3
          · by_cases hxz : x = nx
            · exact .inr (.inr (by simp [hxz]))
            · exact .inl ⟨by simp [hxz, h1], h1e⟩
          · exact .inr (.inl h2)
          · exact absurd h3 (by simp)
        · intro y hy
          rcases hnb y hy with h1 | h2
          · exact .inl (by simp [h1])
          · rcases List.mem_cons.1 h2 with rfl | h3
            · exact .inl (by simp)
            · exact .inr h3

/-- Preservation of the master invariant along the inner DFS loop, with
soundness of the reported cycle node and the facts needed downstream about
a completed loop. -/
theorem dfsLoop_spec {g : Graph} (hWF : g.WF) :
    ∀ (fuel : Nat) (s : St), Inv g s →
      ∀ r, dfsLoop g fuel s = some r →
        (∀ nx, r = .error nx → OnCycleG g nx) ∧
        (∀ s', r = .ok s' → Inv g s' ∧ s'.stack = [] ∧
          (∀ x ∈ s.disc, x ∈ s'.disc) ∧ (∀ x ∈ s.stack, x ∈ s'.disc)) := by
  intro fuel
  induction fuel with
  | zero => intro s _ r hr; exact absurd hr (by simp [dfsLoop])
  | succ fuel ih =>
    intro s hInv r hr
    obtain ⟨stack, disc, fin, out⟩ := s
    cases stack with
    | nil =>
      have hr' : (Except.ok ⟨[], disc, fin, out⟩ : Except Nat St) = r := by
        simpa [dfsLoop] using hr
      subst hr'
      refine ⟨fun nx h => Except.noConfusion h, fun s' h => ?_⟩
      injection h with h
      subst h
      exact ⟨hInv, rfl, fun x hx => hx, fun x hx => absurd hx (by simp)⟩
    | cons nx rest =>
      obtain ⟨ch, hseg, hgray⟩ := hInv.chain
      by_cases hd : nx ∈ disc
      · by_cases hf : nx ∈ fin
        · -- already finished: silent pop
          have hr' : dfsLoop g fuel ⟨rest, disc, fin, out⟩ = some r := by
            simpa [dfsLoop, hd, hf] using hr
          have hInv' : Inv g ⟨rest, disc, fin, out⟩ :=
            { fin_disc := hInv.fin_disc
              out_nodup := hInv.out_nodup
              out_fin := hInv.out_fin
              fin_closed := hInv.fin_closed
              no_self := hInv.no_self
              chrono := hInv.chrono
              disc_lt := hInv.disc_lt
              stack_lt := fun x hx => hInv.stack_lt x (List.mem_cons_of_mem _ hx)
              chain := ⟨ch, seg_pop_fin hInv.fin_disc hf hseg, hgray⟩ }
          obtain ⟨he, ho⟩ := ih _ hInv' r hr'
          refine ⟨he, fun s' hs' => ?_⟩
          obtain ⟨hi, hst, hdm, hsm⟩ := ho s' hs'
          refine ⟨hi, hst, hdm, fun x hx => ?_⟩
          rcases List.mem_cons.1 hx with rfl | hx'
          · exact hdm x hd
          · exact hsm x hx'
        · by_cases hany : ∃ x ∈ g.nbrs nx, ¬x = nx ∧ x ∉ fin
          · -- finish-time back edge: report a cycle through nx
            have hr' : (Except.error nx : Except Nat St) = r := by
              simpa [dfsLoop, hd, hf, hany] using hr
            subst hr'
            refine ⟨fun nx' h => ?_, fun s' h => Except.noConfusion h⟩
            injection h with h
            subst h
            obtain ⟨ch', rfl, hseg', hnbd⟩ := seg_gray_top hd hf hseg
            obtain ⟨y, hymem, hyne, hyf⟩ := hany
            have hych : y ∈ ch' := by
              rcases List.mem_cons.1 (hgray y (hnbd y hymem) hyf) with h | h
              · exact absurd h hyne
              · exact h
            rcases chedges_reach (seg_chedges hseg) y (List.mem_cons_of_mem _ hych)
              with h | hp
            · exact absurd h hyne
            · exact GPath.cons (mem_nbrs.1 hymem) hp
          · -- finish nx
            have hnb_fin : ∀ y ∈ g.nbrs nx, y ∈ nx :: fin := by
              intro y hy
              by_contra hc
              exact hany ⟨y, hy, fun h => hc (by simp [h]), fun h => hc (by simp [h])⟩
            have hr' : dfsLoop g fuel ⟨rest, disc, nx :: fin, out ++ [nx]⟩ = some r := by
              simpa [dfsLoop, hd, hf, hany] using hr
            have hnxout : nx ∉ out := fun h => hf ((hInv.out_fin nx).1 h)
            obtain ⟨ch', rfl, hseg', _⟩ := seg_gray_top hd hf hseg
            have hseg2 : SegChain g disc (nx :: fin) [] rest ch' :=
              seg_upper_drop (by simp) (seg_fin_of_upper hseg' (by simp)) [] [] rfl
            have hInv' : Inv g ⟨rest, disc, nx :: fin, out ++ [nx]⟩ :=
              { fin_disc := by
                  intro x hx
                  rcases List.mem_cons.1 hx with rfl | hx'
                  · exact hd
                  · exact hInv.fin_disc x hx'
                out_nodup := by simp [List.nodup_append, hInv.out_nodup, hnxout]
                out_fin := by
                  intro x
                  simp only [List.mem_append, List.mem_singleton, List.mem_cons,
                    hInv.out_fin x]
                  tauto
                fin_closed := by
                  intro x hx y hy
                  rcases List.mem_cons.1 hx with rfl | hx'
                  · exact hnb_fin y hy
                  · exact List.mem_cons_of_mem _ (hInv.fin_closed x hx' y hy)
                no_self := hInv.no_self
                chrono := by
                  refine chrono_append hInv.chrono fun y hy => ?_
                  rcases List.mem_cons.1 (hnb_fin y hy) with rfl | hy'
                  · exact .inr rfl
                  · exact .inl ((hInv.out_fin y).2 hy')
                disc_lt := hInv.disc_lt
                stack_lt := fun x hx => hInv.stack_lt x (List.mem_cons_of_mem _ hx)
                chain := by
                  refine ⟨ch', hseg2, fun x hxd hxf => ?_⟩
                  have hxfin : x ∉ fin := fun h => hxf (List.mem_cons_of_mem _ h)
                  have hxnx : x ≠ nx := fun h => hxf (by simp [h])
                  rcases List.mem_cons.1 (hgray x hxd hxfin) with h | h
                  · exact absurd h hxnx
                  · exact h }
            obtain ⟨he, ho⟩ := ih _ hInv' r hr'
            refine ⟨he, fun s' hs' => ?_⟩
            obtain ⟨hi, hst, hdm, hsm⟩ := ho s' hs'
            refine ⟨hi, hst, hdm, fun x hx => ?_⟩
            rcases List.mem_cons.1 hx with rfl | hx'
            · exact hdm x hd
            · exact hsm x hx'
      · by_cases hself : nx ∈ g.nbrs nx
        · -- self edge: report nx itself
          have hr' : (Except.error nx : Except Nat St) = r := by
            simpa [dfsLoop, hd, hself] using hr
          subst hr'
          refine ⟨fun nx' h => ?_, fun s' h => Except.noConfusion h⟩
          injection h with h
          subst h
          exact GPath.single (mem_nbrs.1 hself)
        · -- discover nx and push its not-yet-discovered successors
          have hfilter : (g.nbrs nx).filter (fun i => !decide (i = nx) && !decide (i ∈ disc)) =
              (g.nbrs nx).filter (fun i => !(nx :: disc).contains i) :=
            List.filter_congr fun i _ => (filter_pred_eq nx disc i).symm
          have hr' : dfsLoop g fuel
              ⟨((g.nbrs nx).filter (fun i => !(nx :: disc).contains i)).reverse
                  ++ nx :: rest, nx :: disc, fin, out⟩ = some r := by
            rw [← hfilter]
            simpa [dfsLoop, hd, hself] using hr
          have hnoself : ¬ EdgeG g nx nx := fun he => hself (mem_nbrs.2 he)
          have hInv' : Inv g ⟨((g.nbrs nx).filter
              (fun i => !(nx :: disc).contains i)).reverse ++ nx :: rest,
              nx :: disc, fin, out⟩ :=
            { fin_disc := fun x hx => List.mem_cons_of_mem _ (hInv.fin_disc x hx)
              out_nodup := hInv.out_nodup
              out_fin := hInv.out_fin
              fin_closed := hInv.fin_closed
              no_self := by
                intro x hx
                rcases List.mem_cons.1 hx with rfl | hx'
                · exact hnoself
                · exact hInv.no_self x hx'
              chrono := hInv.chrono
              disc_lt := by
                intro x hx
                rcases List.mem_cons.1 hx with rfl | hx'
                · exact hInv.stack_lt x (by simp)
                · exact hInv.disc_lt x hx'
              stack_lt := by
                intro x hx
                rcases List.mem_append.1 hx with hx' | hx'
                · exact nbrs_lt_of_wf hWF (List.mem_filter.1 (List.mem_reverse.1 hx')).1
                · exact hInv.stack_lt x hx'
              chain := by
                refine ⟨nx :: ch, seg_discover hd hInv.fin_disc hseg, fun x hxd hxf => ?_⟩
                rcases List.mem_cons.1 hxd with rfl | hx'
                · simp
                · exact List.mem_cons_of_mem _ (hgray x hx' hxf) }
          obtain ⟨he, ho⟩ := ih _ hInv' r hr'
          refine ⟨he, fun s' hs' => ?_⟩
          obtain ⟨hi, hst, hdm, hsm⟩ := ho s' hs'
          refine ⟨hi, hst, fun x hx => hdm x (List.mem_cons_of_mem _ hx),
            fun x hx => hsm x (List.mem_append.2 (.inr hx))⟩

/-! Fuel sufficiency: with `topoFuel` fuel the machine never runs out. -/

theorem pot_cons (g : Graph) (nx : Nat) (rest disc fin out : List Nat) :
    pot g ⟨nx :: rest, disc, fin, out⟩ = pot g ⟨rest, disc, fin, out⟩ + 2 := by
  simp only [pot, List.length_cons]
  ring

theorem card_undisc_cons {g : Graph} {nx : Nat} {disc : List Nat}
    (h1 : nx < g.nodes.length) (h2 : nx ∉ disc) :
    ((Finset.range g.nodes.length).filter (fun v => v ∉ (nx :: disc))).card + 1 =
      ((Finset.range g.nodes.length).filter (fun v => v ∉ disc)).card := by
  have he : (Finset.range g.nodes.length).filter (fun v => v ∉ (nx :: disc)) =
      ((Finset.range g.nodes.length).filter (fun v => v ∉ disc)).erase nx := by
    ext v
    simp only [Finset.mem_erase, Finset.mem_filter, Finset.mem_range, List.mem_cons]
    tauto
  rw [he, Finset.card_erase_of_mem (by simp [Finset.mem_filter, h1, h2])]
  have hpos : 0 < ((Finset.range g.nodes.length).filter (fun v => v ∉ disc)).card :=
    Finset.card_pos.2 ⟨nx, by simp [Finset.mem_filter, h1, h2]⟩
  omega

theorem pot_discover {g : Graph} {pushed rest disc fin out : List Nat} {nx : Nat}
    (h1 : nx < g.nodes.length) (h2 : nx ∉ disc)
    (hlen : pushed.length ≤ g.edges.length) :
    pot g ⟨pushed ++ nx :: rest, nx :: disc, fin, out⟩ + 2 ≤
      pot g ⟨nx :: rest, disc, fin, out⟩ := by
  have hcard := card_undisc_cons h1 h2
  simp only [pot, List.length_append, List.length_cons]
  rw [← hcard]
  have hring : 2 * (g.edges.length + 1) *
      (((Finset.range g.nodes.length).filter (fun v => v ∉ (nx :: disc))).card + 1) =
      2 * (g.edges.length + 1) *
        ((Finset.range g.nodes.length).filter (fun v => v ∉ (nx :: disc))).card +
      2 * g.edges.length + 2 := by ring
  omega

theorem dfsLoop_isSome {g : Graph} (hWF : g.WF) :
    ∀ (fuel : Nat) (s : St), (∀ x ∈ s.stack, x < g.nodes.length) →
      pot g s ≤ fuel → (dfsLoop g fuel s).isSome = true := by
  intro fuel
  induction fuel with
  | zero => intro s _ hp; exact absurd hp (by simp [pot])
  | succ fuel ih =>
    intro s hs hp
    obtain ⟨stack, disc, fin, out⟩ := s
    cases stack with
    | nil => simp [dfsLoop]
    | cons nx rest =>
      have hrest_lt : ∀ x ∈ rest, x < g.nodes.length :=
        fun x hx => hs x (List.mem_cons_of_mem _ hx)
      have hpc := pot_cons g nx rest disc fin out
      by_cases hd : nx ∈ disc
      · by_cases hf : nx ∈ fin
        · rw [show dfsLoop g (fuel + 1) ⟨nx :: rest, disc, fin, out⟩ =
              dfsLoop g fuel ⟨rest, disc, fin, out⟩ by simp [dfsLoop, hd, hf]]
          exact ih _ hrest_lt (by omega)
        · by_cases hany : ∃ x ∈ g.nbrs nx, ¬x = nx ∧ x ∉ fin
          · simp [dfsLoop, hd, hf, hany]
          · rw [show dfsLoop g (fuel + 1) ⟨nx :: rest, disc, fin, out⟩ =
                dfsLoop g fuel ⟨rest, disc, nx :: fin, out ++ [nx]⟩ by
                  simp [dfsLoop, hd, hf, hany]]
            have hsame : pot g ⟨rest, disc, nx :: fin, out ++ [nx]⟩ =
                pot g ⟨rest, disc, fin, out⟩ := rfl
            exact ih _ hrest_lt (by omega)
      · by_cases hself : nx ∈ g.nbrs nx
        · simp [dfsLoop, hd, hself]
        · have hfilter : (g.nbrs nx).filter
              (fun i => !decide (i = nx) && !decide (i ∈ disc)) =
              (g.nbrs nx).filter (fun i => !(nx :: disc).contains i) :=
            List.filter_congr fun i _ => (filter_pred_eq nx disc i).symm
          rw [show dfsLoop g (fuel + 1) ⟨nx :: rest, disc, fin, out⟩ =
              dfsLoop g fuel ⟨((g.nbrs nx).filter
                (fun i => !(nx :: disc).contains i)).reverse ++ nx :: rest,
                nx :: disc, fin, out⟩ by
                rw [← hfilter]
                simp [dfsLoop, hd, hself]]
          have hlen : ((g.nbrs nx).filter
              (fun i => !(nx :: disc).contains i)).reverse.length ≤ g.edges.length := by
            calc ((g.nbrs nx).filter (fun i => !(nx :: disc).contains i)).reverse.length
                = ((g.nbrs nx).filter (fun i => !(nx :: disc).contains i)).length := by
                  simp
              _ ≤ (g.nbrs nx).length := List.length_filter_le _ _
              _ ≤ g.edges.length := nbrs_length_le nx
          have hpd := @pot_discover g
            ((g.nbrs nx).filter (fun i => !(nx :: disc).contains i)).reverse
            rest disc fin out nx (hs nx (by simp)) hd hlen
          refine ih _ ?_ (by omega)
          intro x hx
          rcases List.mem_append.1 hx with hx' | hx'
          · exact nbrs_lt_of_wf hWF (List.mem_filter.1 (List.mem_reverse.1 hx')).1
          · exact hs x hx'

theorem runRoots_isSome {g : Graph} (hWF : g.WF) :
    ∀ (roots : List Nat) (s : St), (∀ x ∈ roots, x < g.nodes.length) →
      (runRoots g (topoFuel g) roots s).isSome = true := by
  intro roots
  induction roots with
  | nil => intro s _; simp [runRoots]
  | cons i roots ih =>
    intro s hroots
    have hroots' : ∀ x ∈ roots, x < g.nodes.length :=
      fun x hx => hroots x (List.mem_cons_of_mem _ hx)
    by_cases hi : i ∈ s.disc
    · simpa [runRoots, hi] using ih s hroots'
    · have hcard : ((Finset.range g.nodes.length).filter
          (fun v => v ∉ s.disc)).card ≤ g.nodes.length := by
        calc ((Finset.range g.nodes.length).filter (fun v => v ∉ s.disc)).card
            ≤ (Finset.range g.nodes.length).card := Finset.card_filter_le _ _
          _ = g.nodes.length := Finset.card_range _
      have hmul : 2 * (g.edges.length + 1) *
          ((Finset.range g.nodes.length).filter (fun v => v ∉ s.disc)).card ≤
          2 * (g.edges.length + 1) * g.nodes.length :=
        Nat.mul_le_mul_left _ hcard
      have hpot : pot g { s with stack := [i] } ≤ topoFuel g := by
        have hexp : 2 * (g.edges.length + 1) * (g.nodes.length + 1) =
            2 * (g.edges.length + 1) * g.nodes.length + 2 * g.edges.length + 2 := by
          ring
        simp only [pot, topoFuel, List.length_singleton]
        omega
      have hsome := dfsLoop_isSome hWF (topoFuel g) { s with stack := [i] }
        (by intro x hx; simp only [List.mem_singleton] at hx
            exact hx ▸ hroots i (by simp)) hpot
      obtain ⟨r, hr⟩ := Option.isSome_iff_exists.1 hsome
      cases r with
      | error nx => simp [runRoots, hi, hr]
      | ok s1 =>
        rw [show runRoots g (topoFuel g) (i :: roots) s = runRoots g (topoFuel g) roots s1
          by simp [runRoots, hi, hr]]
        exact ih s1 hroots'

/-! Lifting the loop invariants to `runRoots` and `toposort`. -/

theorem seg_nil_chain {g : Graph} {d f ch stk : List Nat}
    (h : SegChain g d f [] stk ch) (hstk : stk = []) : ch = [] := by
  cases h with
  | base => rfl
  | cons _ A gk tail ch0 => exact absurd hstk (by simp)

theorem inv_init (g : Graph) : Inv g ⟨[], [], [], []⟩ :=
  { fin_disc := by simp
    out_nodup := List.nodup_nil
    out_fin := by simp
    fin_closed := by simp
    no_self := by simp
    chrono := fun p x q h => absurd h (by simp)
    disc_lt := by simp
    stack_lt := by simp
    chain := ⟨[], .base [] [] (by simp), by simp⟩ }

theorem runRoots_spec {g : Graph} (hWF : g.WF) :
    ∀ (roots : List Nat) (s : St), (∀ x ∈ roots, x < g.nodes.length) →
      Inv g s → s.stack = [] →
      ∀ r, runRoots g (topoFuel g) roots s = some r →
        (∀ nx, r = .error nx → OnCycleG g nx) ∧
        (∀ s', r = .ok s' → Inv g s' ∧ s'.stack = [] ∧
          (∀ x ∈ s.disc, x ∈ s'.disc) ∧ (∀ i ∈ roots, i ∈ s'.disc)) := by
  intro roots
  induction roots with
  | nil =>
    intro s _ hInv hstk r hr
    have hr' : Except.ok s = r := by simpa [runRoots] using hr
    subst hr'
    refine ⟨fun nx h => Except.noConfusion h, fun s' h => ?_⟩
    injection h with h
    subst h
    exact ⟨hInv, hstk, fun x hx => hx, by simp⟩
  | cons i roots ih =>
    intro s hroots hInv hstk r hr
    have hroots' : ∀ x ∈ roots, x < g.nodes.length :=
      fun x hx => hroots x (List.mem_cons_of_mem _ hx)
    by_cases hi : i ∈ s.disc
    · have hr' : runRoots g (topoFuel g) roots s = some r := by
        simpa [runRoots, hi] using hr
      obtain ⟨he, ho⟩ := ih s hroots' hInv hstk r hr'
      refine ⟨he, fun s' hs' => ?_⟩
      obtain ⟨h1, h2, h3, h4⟩ := ho s' hs'
      refine ⟨h1, h2, h3, fun j hj => ?_⟩
      rcases List.mem_cons.1 hj with rfl | hj'
      · exact h3 j hi
      · exact h4 j hj'
    · obtain ⟨ch0, hseg0, hgray0⟩ := hInv.chain
      have hch0 : ch0 = [] := seg_nil_chain hseg0 hstk
      subst hch0
      have hInvPush : Inv g { s with stack := [i] } :=
        { fin_disc := hInv.fin_disc
          out_nodup := hInv.out_nodup
          out_fin := hInv.out_fin
          fin_closed := hInv.fin_closed
          no_self := hInv.no_self
          chrono := hInv.chrono
          disc_lt := hInv.disc_lt
          stack_lt := by
            intro x hx
            simp only [List.mem_singleton] at hx
            exact hx ▸ hroots i (by simp)
          chain := ⟨[], .base [] [i]
            (fun x hx => by
              simp only [List.mem_singleton] at hx
              exact .inl (hx ▸ hi)), hgray0⟩ }
      cases hdl : dfsLoop g (topoFuel g) { s with stack := [i] } with
      | none => exact absurd hr (by simp [runRoots, hi, hdl])
      | some r1 =>
        obtain ⟨he1, ho1⟩ := dfsLoop_spec hWF (topoFuel g) _ hInvPush r1 hdl
        cases r1 with
        | error nx =>
          have hr' : Except.error nx = r := by simpa [runRoots, hi, hdl] using hr
          subst hr'
          refine ⟨fun nx' h => ?_, fun s' h => Except.noConfusion h⟩
          injection h with h
          subst h
          exact he1 nx rfl
        | ok s1 =>
          have hr' : runRoots g (topoFuel g) roots s1 = some r := by
            simpa [runRoots, hi, hdl] using hr
          obtain ⟨hInv1, hstk1, hdm1, hsm1⟩ := ho1 s1 rfl
          obtain ⟨he, ho⟩ := ih s1 hroots' hInv1 hstk1 r hr'
          refine ⟨he, fun s' hs' => ?_⟩
          obtain ⟨h1, h2, h3, h4⟩ := ho s' hs'
          refine ⟨h1, h2, fun x hx => h3 x (hdm1 x hx), fun j hj => ?_⟩
          rcases List.mem_cons.1 hj with rfl | hj'
          · exact h3 j (hsm1 j (by simp))
          · exact h4 j hj'

theorem chrono_path_prec {g : Graph} {l : List Nat}
    (hch : ChronoOk g l) (hns : ∀ x ∈ l, ¬ EdgeG g x x) :
    ∀ {u v : Nat}, GPath g u v → ∀ p q, l = p ++ u :: q → v ∈ p := by
  intro u v hpath
  induction hpath with
  | @single u v he =>
    intro p q hsplit
    rcases hch p u q hsplit v (mem_nbrs.2 he) with h | heq
    · exact h
    · exact absurd (heq ▸ he) (hns u (by rw [hsplit]; simp))
  | @cons u b w he hrest ih =>
    intro p q hsplit
    have hb : b ∈ p := by
      rcases hch p u q hsplit b (mem_nbrs.2 he) with h | h
      · exact h
      · exact absurd (h ▸ he) (hns u (by rw [hsplit]; simp))
    obtain ⟨p₁, p₂, rfl⟩ := List.append_of_mem hb
    have hsplit2 : l = p₁ ++ b :: (p₂ ++ u :: q) := by rw [hsplit]; simp
    exact List.mem_append.2 (.inl (ih p₁ (p₂ ++ u :: q) hsplit2))

theorem chrono_no_cycle {g : Graph} {l : List Nat}
    (hch : ChronoOk g l) (hnd : l.Nodup) (hns : ∀ x ∈ l, ¬ EdgeG g x x)
    {x : Nat} (hx : x ∈ l) (hcyc : GPath g x x) : False := by
  obtain ⟨p, q, rfl⟩ := List.append_of_mem hx
  have hin := chrono_path_prec hch hns hcyc p q rfl
  rw [List.nodup_append] at hnd
  exact hnd.2.2 hin (by simp)

/-- Facts about a successful toposort: the output lists every node exactly
once, and the graph has no cycle. -/
theorem toposort_ok_facts {g : Graph} (hWF : g.WF) {order : List Nat}
    (h : toposort g = .ok order) :
    order.Nodup ∧ (∀ i, i < g.nodes.length → i ∈ order) ∧ ¬ HasCycleG g := by
  unfold toposort at h
  cases hrr : runRoots g (topoFuel g) (List.range g.nodes.length) ⟨[], [], [], []⟩ with
  | none =>
    have hsome := runRoots_isSome hWF (List.range g.nodes.length) ⟨[], [], [], []⟩
      (fun x hx => List.mem_range.1 hx)
    rw [hrr] at hsome
    simp at hsome
  | some r =>
    rw [hrr] at h
    cases r with
    | error nx => exact absurd h (by simp)
    | ok sf =>
      have horder : sf.out.reverse = order := by simpa using h
      obtain ⟨_, ho⟩ := runRoots_spec hWF (List.range g.nodes.length) ⟨[], [], [], []⟩
        (fun x hx => List.mem_range.1 hx) (inv_init g) rfl _ hrr
      obtain ⟨hInv, hstk, _, hcov⟩ := ho sf rfl
      obtain ⟨ch, hseg, hgray⟩ := hInv.chain
      have hch : ch = [] := seg_nil_chain hseg hstk
      subst hch
      have hdf : ∀ x ∈ sf.disc, x ∈ sf.fin := by
        intro x hx
        by_contra hc
        exact absurd (hgray x hx hc) (List.not_mem_nil x)
      have hout : ∀ i, i < g.nodes.length → i ∈ sf.out := fun i hi =>
        (hInv.out_fin i).2 (hdf i (hcov i (List.mem_range.2 hi)))
      subst horder
      refine ⟨by simpa using hInv.out_nodup, fun i hi => by simpa using hout i hi, ?_⟩
      rintro ⟨x, hx⟩
      have hxedge : ∃ y, EdgeG g x y := by
        cases hx with
        | single he => exact ⟨_, he⟩
        | cons he _ => exact ⟨_, he⟩
      obtain ⟨y, hy⟩ := hxedge
      have hxl : x < g.nodes.length := (hWF _ hy).1
      have hns : ∀ z ∈ sf.out, ¬ EdgeG g z z := fun z hz =>
        hInv.no_self z (hInv.fin_disc z ((hInv.out_fin z).1 hz))
      exact chrono_no_cycle hInv.chrono hInv.out_nodup hns (hout x hxl) hx

theorem toposort_err_of_cycle {g : Graph} (hWF : g.WF) (hc : HasCycleG g) :
    ∃ nx, toposort g = .error nx := by
  cases htp : toposort g with
  | error nx => exact ⟨nx, rfl⟩
  | ok order => exact absurd hc (toposort_ok_facts hWF htp).2.2

theorem toposort_error_on_cycle {g : Graph} (hWF : g.WF) {nx : Nat}
    (h : toposort g = .error nx) : OnCycleG g nx := by
  unfold toposort at h
  cases hrr : runRoots g (topoFuel g) (List.range g.nodes.length) ⟨[], [], [], []⟩ with
  | none =>
    have hsome := runRoots_isSome hWF (List.range g.nodes.length) ⟨[], [], [], []⟩
      (fun x hx => List.mem_range.1 hx)
    rw [hrr] at hsome
    simp at hsome
  | some r =>
    rw [hrr] at h
    cases r with
    | error nx' =>
      have hnx : nx' = nx := by simpa using h
      subst hnx
      exact (runRoots_spec hWF (List.range g.nodes.length) ⟨[], [], [], []⟩
        (fun x hx => List.mem_range.1 hx) (inv_init g) rfl _ hrr).1 _ rfl
    | ok sf => exact absurd h (by simp)

/-! Theorems about dispatching. -/

theorem foldl_emit (l : List Plugin) (acc : List Nat) :
    l.foldl (fun acc p => acc ++ [p.run]) acc = acc ++ l.map (·.run) := by
  induction l generalizing acc with
  | nil => simp
  | cons p l ih => simp [ih]

theorem dispatch_eq_flatten (d : Dispatcher) :
    dispatch d = d.stages.flatten.map (·.run) := by
  show d.stages.foldl _ [] = _
  have h : ∀ (st : List (List Plugin)) (acc : List Nat),
      st.foldl (fun acc stage => stage.foldl (fun acc p => acc ++ [p.run]) acc) acc =
        acc ++ st.flatten.map (·.run) := by
    intro st
    induction st with
    | nil => simp
    | cons stage st ih =>
      intro acc
      rw [List.foldl_cons, foldl_emit, ih]
      simp
  simpa using h d.stages []

/-- C9: dispatch never mutates the plan, so two invocations of sequential
dispatch on the same finalized plan yield the identical trace, and every
invocation is the same independent full run from stage zero: the
stage-ordered concatenation of the plan's actions. -/
theorem dispatch_repeatable (d : Dispatcher) :
    dispatch d ++ dispatch d =
      d.stages.flatten.map (·.run) ++ d.stages.flatten.map (·.run) ∧
    dispatch d = d.stages.flatten.map (·.run) := by
  refine ⟨?_, dispatch_eq_flatten d⟩
  rw [dispatch_eq_flatten]

/-- C8: for plugins `A` (no dependencies, action 1) and `B` (depending on
`"A"`, action 2) loaded in order `B` then `A`, the plan has exactly the
two singleton stages `{A}` then `{B}`, and sequential dispatch performs
`A`'s action strictly before `B`'s. -/
theorem smoke_two_stages_A_before_B :
    intoDispatcher mSmoke =
      .ok ⟨[[⟨"A", [], 1⟩], [⟨"B", ["A"], 2⟩]], [0, 1]⟩ ∧
    (intoDispatcher mSmoke).map dispatch = .ok [1, 2] :=
  ⟨rfl, rfl⟩

/-- C4 (counterexample): for three independent plugins the stage plan does
not consist of a single stage; the code builds three stages. -/
theorem three_independent_not_single_stage :
    ¬ ∃ d, intoDispatcher mThree = .ok d ∧ d.stages.length = 1 := by
  rintro ⟨d, hd, h1⟩
  rw [show intoDispatcher mThree =
        .ok ⟨[[⟨"C", [], 3⟩], [⟨"B", [], 2⟩], [⟨"A", [], 1⟩]], [0, 1, 2]⟩ from rfl] at hd
  injection hd with h
  subst h
  exact absurd h1 (by decide)

/-- C4 (amended): for three independent plugins loaded in order `A`, `B`,
`C`, planning succeeds with one singleton stage per plugin in reverse load
order, and dispatch (sequential or staged-parallel) still executes all
three actions before returning. -/
theorem three_independent_three_stages :
    intoDispatcher mThree =
      .ok ⟨[[⟨"C", [], 3⟩], [⟨"B", [], 2⟩], [⟨"A", [], 1⟩]], [0, 1, 2]⟩ ∧
    (intoDispatcher mThree).map dispatch = .ok [3, 2, 1] ∧
    (intoDispatcher mThree).map dispatchPar =
      .ok [({3} : Multiset Nat), {2}, {1}] ∧
    (intoDispatcher mThree).map (fun d => ((dispatch d : List Nat) : Multiset Nat)) =
      .ok ({1, 2, 3} : Multiset Nat) := by
  refine ⟨rfl, rfl, ?_, ?_⟩
  · show Except.ok [(([3] : List Nat) : Multiset Nat),
      (([2] : List Nat) : Multiset Nat), (([1] : List Nat) : Multiset Nat)] = _
    congr 1
  · show Except.ok (([3, 2, 1] : List Nat) : Multiset Nat) = _
    congr 1
    decide

/-- C2 (counterexample): with a single plugin `A` depending on the
never-loaded name `"Z"`, stage planning does not succeed: the planner's
`name_of_plugin[...]` lookup of the phantom node panics. -/
theorem phantom_dep_planning_panics :
    intoDispatcher mPhantom = .error (.missingName "Z") :=
  rfl

/-- C5: when the loader fails (with either failure kind), `load_plugin`
returns exactly that error and the manager is unchanged: no name-index
entry, no plugin instance and no module handle is added, and previously
loaded modules are untouched. -/
theorem load_error_manager_unchanged (m : Manager) (mod : Module)
    (e : PluginLoadError) (h : nativeLoad mod = .error e) :
    loadPlugin m ((nativeLoad mod).map (fun lp => (m.libraries.length, lp.2))) =
      (m, some e) := by
  rw [h]
  rfl

/-- C5 (witness): loading the (mis-exported) hello-world module into the
empty manager fails and leaves the manager empty. -/
theorem load_error_manager_unchanged_witness :
    loadPlugin emptyManager
        ((nativeLoad helloWorldModule).map
          (fun lp => (emptyManager.libraries.length, lp.2))) =
      (emptyManager, some .plugin) :=
  load_error_manager_unchanged emptyManager helloWorldModule .plugin rfl

/-- C6: the native loader resolves exactly the symbol `"create_plugin"`;
any module that yields a handle but does not export that symbol fails with
the entry-point error kind `PluginLoadError::Plugin`, never the handle
error kind `PluginLoadError::Library`. -/
theorem missing_entry_point_plugin_error (mod : Module)
    (h1 : mod.loadOk = true) (h2 : "create_plugin" ∉ mod.symbols) :
    nativeLoad mod = .error .plugin := by
  unfold nativeLoad
  rw [h1]
  simp [h2]

/-- C6 (witness): the bundled hello-world plugin exports `"plugin_create"`
instead, so loading it fails with the entry-point error kind. -/
theorem missing_entry_point_plugin_error_witness :
    nativeLoad helloWorldModule = .error .plugin :=
  missing_entry_point_plugin_error helloWorldModule rfl (by decide)

/-- C7: on a duplicate plugin name the name-to-index mapping is silently
overwritten to the newer plugin and the older instance and its module
handle stay in storage; but the orphaned instance is not always skipped by
dispatch: in this scenario the stale indices left by `Vec::remove` make
the planner put the orphaned `Z` instance (action 3) into a stage, and it
is dispatched while `Y` never runs. -/
theorem duplicate_name_orphan_dispatched :
    lookupName mDup.nameIdx "Z" = some 3 ∧
    mDup.plugins =
      [⟨"X", [], 1⟩, ⟨"Y", ["X"], 2⟩, ⟨"Z", [], 3⟩, ⟨"Z", [], 4⟩] ∧
    mDup.libraries = [0, 1, 2, 3] ∧
    (intoDispatcher mDup).map dispatch = .ok [4, 1, 3] :=
  ⟨rfl, rfl, rfl, rfl⟩

/-! Characterization of the dependency graph built by `into_dispatcher`. -/

theorem getOrAdd_edges (g : Graph) (name : String) :
    (g.getOrAddNode name).1.edges = g.edges := by
  cases h : g.nodes.findIdx? (· == name) with
  | none => simp [Graph.getOrAddNode, h]
  | some i => simp [Graph.getOrAddNode, h]

theorem getOrAdd_extend (g : Graph) (name : String) :
    ∃ t, (g.getOrAddNode name).1.nodes = g.nodes ++ t := by
  cases h : g.nodes.findIdx? (· == name) with
  | none => exact ⟨[name], by simp [Graph.getOrAddNode, h]⟩
  | some i => exact ⟨[], by simp [Graph.getOrAddNode, h]⟩

theorem getOrAdd_mem (g : Graph) (name : String) (a : String) :
    a ∈ (g.getOrAddNode name).1.nodes ↔ a ∈ g.nodes ∨ a = name := by
  cases h : g.nodes.findIdx? (· == name) with
  | none => simp [Graph.getOrAddNode, h]
  | some i =>
    simp only [Graph.getOrAddNode, h]
    constructor
    · exact .inl
    · rintro (h1 | rfl)
      · exact h1
      · obtain ⟨hlt, hp, _⟩ := List.findIdx?_eq_some_iff_getElem.1 h
        have hg : g.nodes[i] = a := by simpa using hp
        exact hg ▸ List.getElem_mem hlt

theorem getOrAdd_idx (g : Graph) (name : String) :
    (g.getOrAddNode name).1.nodes.get? (g.getOrAddNode name).2 = some name := by
  cases h : g.nodes.findIdx? (· == name) with
  | none =>
    simp only [Graph.getOrAddNode, h]
    exact List.get?_concat_length _ _
  | some i =>
    obtain ⟨hlt, hp, _⟩ := List.findIdx?_eq_some_iff_getElem.1 h
    have hbeq : g.nodes[i] = name := by simpa using hp
    simp only [Graph.getOrAddNode, h]
    simp [List.get?_eq_getElem?, List.getElem?_eq_getElem hlt, hbeq]

theorem getOrAdd_nodup (g : Graph) (name : String) (h : g.nodes.Nodup) :
    (g.getOrAddNode name).1.nodes.Nodup := by
  cases hf : g.nodes.findIdx? (· == name) with
  | some i => simpa [Graph.getOrAddNode, hf] using h
  | none =>
    have hnm : name ∉ g.nodes := by
      intro hmem
      have := List.findIdx?_eq_none_iff.1 hf _ hmem
      simp at this
    simp [Graph.getOrAddNode, hf, List.nodup_append, h, hnm]

theorem getOrAdd_lt (g : Graph) (name : String) :
    (g.getOrAddNode name).2 < (g.getOrAddNode name).1.nodes.length := by
  obtain ⟨hlt, _⟩ := List.get?_eq_some.1 (getOrAdd_idx g name)
  exact hlt

theorem get?_mono {l1 l2 : List String} (h : ∃ t, l2 = l1 ++ t) {j : Nat} {x : String}
    (hx : l1.get? j = some x) : l2.get? j = some x := by
  obtain ⟨t, rfl⟩ := h
  obtain ⟨hlt, _⟩ := List.get?_eq_some.1 hx
  rw [List.get?_append hlt]
  exact hx

theorem addDep_nodes (m : Nat) (g : Graph) (dep : String) :
    (Graph.addDep m g dep).nodes = (g.getOrAddNode dep).1.nodes := rfl

theorem addDep_edges (m : Nat) (g : Graph) (dep : String) :
    (Graph.addDep m g dep).edges = ((g.getOrAddNode dep).2, m) :: g.edges := by
  show ((g.getOrAddNode dep).2, m) :: (g.getOrAddNode dep).1.edges = _
  rw [getOrAdd_edges]

theorem depfold_spec (m : Nat) :
    ∀ (D : List String) (h0 : Graph), h0.nodes.Nodup →
      (∃ t, (D.foldl (Graph.addDep m) h0).nodes = h0.nodes ++ t) ∧
      (D.foldl (Graph.addDep m) h0).nodes.Nodup ∧
      (∀ a, a ∈ (D.foldl (Graph.addDep m) h0).nodes ↔ a ∈ h0.nodes ∨ a ∈ D) ∧
      (∀ u v, EdgeG (D.foldl (Graph.addDep m) h0) u v ↔ EdgeG h0 u v ∨
        (v = m ∧ ∃ dn ∈ D, (D.foldl (Graph.addDep m) h0).nodes.get? u = some dn)) ∧
      (Graph.WF h0 → m < h0.nodes.length → Graph.WF (D.foldl (Graph.addDep m) h0)) := by
  intro D
  induction D with
  | nil =>
    intro h0 hnd
    exact ⟨⟨[], by simp⟩, hnd, by simp, by simp [EdgeG], fun hwf _ => hwf⟩
  | cons dep D ih =>
    intro h0 hnd
    set g1 := Graph.addDep m h0 dep with hg1
    have hg1nodes : g1.nodes = (h0.getOrAddNode dep).1.nodes := rfl
    have hg1pre : ∃ t, g1.nodes = h0.nodes ++ t := by
      rw [hg1nodes]; exact getOrAdd_extend h0 dep
    have hg1nd : g1.nodes.Nodup := by
      rw [hg1nodes]; exact getOrAdd_nodup h0 dep hnd
    have hg1mem : ∀ a, a ∈ g1.nodes ↔ a ∈ h0.nodes ∨ a = dep := by
      intro a; rw [hg1nodes]; exact getOrAdd_mem h0 dep a
    have hg1idx : g1.nodes.get? (h0.getOrAddNode dep).2 = some dep := by
      rw [hg1nodes]; exact getOrAdd_idx h0 dep
    have hg1edge : ∀ u v, EdgeG g1 u v ↔
        (u = (h0.getOrAddNode dep).2 ∧ v = m) ∨ EdgeG h0 u v := by
      intro u v
      rw [EdgeG, hg1, addDep_edges]
      simp [EdgeG, Prod.ext_iff]
    obtain ⟨ihpre, ihnd, ihmem, ihedge, ihwf⟩ := ih g1 hg1nd
    have hfold : (dep :: D).foldl (Graph.addDep m) h0 = D.foldl (Graph.addDep m) g1 := rfl
    rw [hfold]
    have hpre : ∃ t, (D.foldl (Graph.addDep m) g1).nodes = h0.nodes ++ t := by
      obtain ⟨t1, ht1⟩ := hg1pre
      obtain ⟨t2, ht2⟩ := ihpre
      exact ⟨t1 ++ t2, by rw [ht2, ht1, List.append_assoc]⟩
    refine ⟨hpre, ihnd, ?_, ?_, ?_⟩
    · intro a
      rw [ihmem a, hg1mem a]
      simp only [List.mem_cons]
      tauto
    · intro u v
      rw [ihedge u v, hg1edge u v]
      constructor
      · rintro ((⟨rfl, rfl⟩ | he) | ⟨rfl, dn, hdn, hget⟩)
        · exact .inr ⟨rfl, dep, by simp, get?_mono ihpre hg1idx⟩
        · exact .inl he
        · exact .inr ⟨rfl, dn, List.mem_cons_of_mem _ hdn, hget⟩
      · rintro (he | ⟨rfl, dn, hdn, hget⟩)
        · exact .inl (.inr he)
        · rcases List.mem_cons.1 hdn with rfl | hdn'
          · -- dn is the dependency just added: u must be its canonical index
            have hcan := get?_mono ihpre hg1idx
            have hu : u = (h0.getOrAddNode dn).2 :=
              List.get?_inj (List.get?_eq_some.1 hget).1 ihnd (hget.trans hcan.symm)
            exact .inl (.inl ⟨hu, rfl⟩)
          · exact .inr ⟨rfl, dn, hdn', hget⟩
    · intro hwf hm
      refine ihwf ?_ ?_
      · -- WF g1
        intro e he
        rw [hg1, addDep_edges] at he
        rcases List.mem_cons.1 he with rfl | he'
        · constructor
          · rw [hg1nodes]; exact getOrAdd_lt h0 dep
          · calc m < h0.nodes.length := hm
              _ ≤ g1.nodes.length := by
                obtain ⟨t, ht⟩ := hg1pre
                rw [ht]; simp
        · obtain ⟨h1, h2⟩ := hwf e he'
          obtain ⟨t, ht⟩ := hg1pre
          constructor
          · calc e.1 < h0.nodes.length := h1
              _ ≤ g1.nodes.length := by rw [ht]; simp
          · calc e.2 < h0.nodes.length := h2
              _ ≤ g1.nodes.length := by rw [ht]; simp
      · calc m < h0.nodes.length := hm
          _ ≤ g1.nodes.length := by
            obtain ⟨t, ht⟩ := hg1pre
            rw [ht]; simp

theorem addPlugin_spec (g : Graph) (p : Plugin) (hnd : g.nodes.Nodup) :
    (∃ t, (g.addPlugin p).nodes = g.nodes ++ t) ∧
    (g.addPlugin p).nodes.Nodup ∧
    (∀ a, a ∈ (g.addPlugin p).nodes ↔ a ∈ g.nodes ∨ a = p.name ∨ a ∈ p.deps) ∧
    (∀ u v, EdgeG (g.addPlugin p) u v ↔ EdgeG g u v ∨
      (∃ dn ∈ p.deps, (g.addPlugin p).nodes.get? u = some dn ∧
        (g.addPlugin p).nodes.get? v = some p.name)) ∧
    (Graph.WF g → Graph.WF (g.addPlugin p)) := by
  have hunfold : g.addPlugin p =
      p.deps.foldl (Graph.addDep (g.getOrAddNode p.name).2) (g.getOrAddNode p.name).1 :=
    rfl
  have hg1nd : (g.getOrAddNode p.name).1.nodes.Nodup := getOrAdd_nodup g p.name hnd
  obtain ⟨hpre, hnd2, hmem, hedge, hwf⟩ :=
    depfold_spec (g.getOrAddNode p.name).2 p.deps (g.getOrAddNode p.name).1 hg1nd
  rw [hunfold]
  have hmidx : (p.deps.foldl (Graph.addDep (g.getOrAddNode p.name).2)
      (g.getOrAddNode p.name).1).nodes.get? (g.getOrAddNode p.name).2 = some p.name :=
    get?_mono hpre (getOrAdd_idx g p.name)
  have hg1pre : ∃ t, (g.getOrAddNode p.name).1.nodes = g.nodes ++ t :=
    getOrAdd_extend g p.name
  have hedges1 : (g.getOrAddNode p.name).1.edges = g.edges := getOrAdd_edges g p.name
  refine ⟨?_, hnd2, ?_, ?_, ?_⟩
  · obtain ⟨t1, ht1⟩ := hg1pre
    obtain ⟨t2, ht2⟩ := hpre
    exact ⟨t1 ++ t2, by rw [ht2, ht1, List.append_assoc]⟩
  · intro a
    rw [hmem a, getOrAdd_mem g p.name a]
    tauto
  · intro u v
    rw [hedge u v]
    constructor
    · rintro (he | ⟨rfl, dn, hdn, hget⟩)
      · exact .inl (by rwa [EdgeG, hedges1] at he)
      · exact .inr ⟨dn, hdn, hget, hmidx⟩
    · rintro (he | ⟨dn, hdn, hget, hgetv⟩)
      · exact .inl (by rwa [EdgeG, hedges1])
      · have hv : v = (g.getOrAddNode p.name).2 :=
          List.get?_inj (List.get?_eq_some.1 hgetv).1 hnd2 (hgetv.trans hmidx.symm)
        exact .inr ⟨hv, dn, hdn, hget⟩
  · intro hwfg
    refine hwf ?_ (getOrAdd_lt g p.name)
    intro e he
    rw [hedges1] at he
    obtain ⟨h1, h2⟩ := hwfg e he
    obtain ⟨t, ht⟩ := hg1pre
    exact ⟨lt_of_lt_of_le h1 (by rw [ht]; simp), lt_of_lt_of_le h2 (by rw [ht]; simp)⟩

theorem buildGraph_fold_spec :
    ∀ (ps : List Plugin) (g0 : Graph), g0.nodes.Nodup →
      (∃ t, (ps.foldl Graph.addPlugin g0).nodes = g0.nodes ++ t) ∧
      (ps.foldl Graph.addPlugin g0).nodes.Nodup ∧
      (∀ a, a ∈ (ps.foldl Graph.addPlugin g0).nodes ↔
        a ∈ g0.nodes ∨ ∃ p ∈ ps, a = p.name ∨ a ∈ p.deps) ∧
      (∀ u v, EdgeG (ps.foldl Graph.addPlugin g0) u v ↔ EdgeG g0 u v ∨
        ∃ p ∈ ps, ∃ dn ∈ p.deps,
          (ps.foldl Graph.addPlugin g0).nodes.get? u = some dn ∧
          (ps.foldl Graph.addPlugin g0).nodes.get? v = some p.name) ∧
      (Graph.WF g0 → Graph.WF (ps.foldl Graph.addPlugin g0)) := by
  intro ps
  induction ps with
  | nil =>
    intro g0 hnd
    exact ⟨⟨[], by simp⟩, hnd, by simp, by simp, fun h => h⟩
  | cons p ps ih =>
    intro g0 hnd
    obtain ⟨hpre1, hnd1, hmem1, hedge1, hwf1⟩ := addPlugin_spec g0 p hnd
    obtain ⟨hpre2, hnd2, hmem2, hedge2, hwf2⟩ := ih (g0.addPlugin p) hnd1
    have hfold : (p :: ps).foldl Graph.addPlugin g0 =
        ps.foldl Graph.addPlugin (g0.addPlugin p) := rfl
    rw [hfold]
    refine ⟨?_, hnd2, ?_, ?_, fun hwf => hwf2 (hwf1 hwf)⟩
    · obtain ⟨t1, ht1⟩ := hpre1
      obtain ⟨t2, ht2⟩ := hpre2
      exact ⟨t1 ++ t2, by rw [ht2, ht1, List.append_assoc]⟩
    · intro a
      rw [hmem2 a, hmem1 a]
      constructor
      · rintro ((h | h | h) | ⟨q, hq, hcase⟩)
        · exact .inl h
        · exact .inr ⟨p, by simp, .inl h⟩
        · exact .inr ⟨p, by simp, .inr h⟩
        · exact .inr ⟨q, List.mem_cons_of_mem _ hq, hcase⟩
      · rintro (h | ⟨q, hq, hcase⟩)
        · exact .inl (.inl h)
        · rcases List.mem_cons.1 hq with rfl | hq2
          · rcases hcase with h | h
            · exact .inl (.inr (.inl h))
            · exact .inl (.inr (.inr h))
          · exact .inr ⟨q, hq2, hcase⟩
    · intro u v
      rw [hedge2 u v, hedge1 u v]
      constructor
      · rintro ((he | ⟨dn, hdn, hget, hgetv⟩) | ⟨q, hq, dn, hdn, hget, hgetv⟩)
        · exact .inl he
        · exact .inr ⟨p, by simp, dn, hdn, get?_mono hpre2 hget, get?_mono hpre2 hgetv⟩
        · exact .inr ⟨q, List.mem_cons_of_mem _ hq, dn, hdn, hget, hgetv⟩
      · rintro (he | ⟨q, hq, dn, hdn, hget, hgetv⟩)
        · exact .inl (.inl he)
        · rcases List.mem_cons.1 hq with rfl | hq2
          · have hdn_mem : dn ∈ (g0.addPlugin q).nodes :=
              (hmem1 dn).2 (.inr (.inr hdn))
            obtain ⟨u1, hu1⟩ := List.mem_iff_get?.1 hdn_mem
            have hname_mem : q.name ∈ (g0.addPlugin q).nodes :=
              (hmem1 _).2 (.inr (.inl rfl))
            obtain ⟨v1, hv1⟩ := List.mem_iff_get?.1 hname_mem
            have hu : u = u1 :=
              List.get?_inj (List.get?_eq_some.1 hget).1 hnd2
                (hget.trans (get?_mono hpre2 hu1).symm)
            have hv : v = v1 :=
              List.get?_inj (List.get?_eq_some.1 hgetv).1 hnd2
                (hgetv.trans (get?_mono hpre2 hv1).symm)
            subst hu
            subst hv
            exact .inl (.inr ⟨dn, hdn, hu1, hv1⟩)
          · exact .inr ⟨q, hq2, dn, hdn, hget, hgetv⟩

theorem buildGraph_nodup (ps : List Plugin) : (buildGraph ps).nodes.Nodup :=
  (buildGraph_fold_spec ps emptyGraph List.nodup_nil).2.1

theorem buildGraph_wf (ps : List Plugin) : (buildGraph ps).WF :=
  (buildGraph_fold_spec ps emptyGraph List.nodup_nil).2.2.2.2
    (fun e he => absurd he (List.not_mem_nil e))

theorem mem_buildGraph (ps : List Plugin) (a : String) :
    a ∈ (buildGraph ps).nodes ↔ ∃ p ∈ ps, a = p.name ∨ a ∈ p.deps := by
  rw [show (buildGraph ps).nodes = (ps.foldl Graph.addPlugin emptyGraph).nodes from rfl,
    (buildGraph_fold_spec ps emptyGraph List.nodup_nil).2.2.1 a]
  simp [emptyGraph]

theorem edge_buildGraph (ps : List Plugin) (u v : Nat) :
    EdgeG (buildGraph ps) u v ↔ ∃ p ∈ ps, ∃ dn ∈ p.deps,
      (buildGraph ps).nodes.get? u = some dn ∧
      (buildGraph ps).nodes.get? v = some p.name := by
  rw [show buildGraph ps = ps.foldl Graph.addPlugin emptyGraph from rfl,
    (buildGraph_fold_spec ps emptyGraph List.nodup_nil).2.2.2.1 u v]
  simp [EdgeG, emptyGraph]

/-! Bridging name-level dependency paths and index-level graph paths. -/

theorem depedge_edge {ps : List Plugin} {a b : String} (h : DepEdge ps a b)
    {u v : Nat} (hu : (buildGraph ps).nodes.get? u = some a)
    (hv : (buildGraph ps).nodes.get? v = some b) :
    EdgeG (buildGraph ps) u v := by
  obtain ⟨p, hp, rfl, ha⟩ := h
  exact (edge_buildGraph ps u v).2 ⟨p, hp, a, ha, hu, hv⟩

theorem edge_depedge {ps : List Plugin} {u v : Nat}
    (h : EdgeG (buildGraph ps) u v) :
    ∃ a b, (buildGraph ps).nodes.get? u = some a ∧
      (buildGraph ps).nodes.get? v = some b ∧ DepEdge ps a b := by
  obtain ⟨p, hp, dn, hdn, hu, hv⟩ := (edge_buildGraph ps u v).1 h
  exact ⟨dn, p.name, hu, hv, p, hp, rfl, hdn⟩

theorem deppath_gpath {ps : List Plugin} :
    ∀ {a b : String}, DepPath ps a b →
      ∀ {u v : Nat}, (buildGraph ps).nodes.get? u = some a →
        (buildGraph ps).nodes.get? v = some b → GPath (buildGraph ps) u v := by
  intro a b hpath
  induction hpath with
  | @single a b he =>
    intro u v hu hv
    exact .single (depedge_edge he hu hv)
  | @cons a c b he hrest ih =>
    intro u v hu hv
    have hc : c ∈ (buildGraph ps).nodes := by
      obtain ⟨p, hp, rfl, _⟩ := he
      exact (mem_buildGraph ps _).2 ⟨p, hp, .inl rfl⟩
    obtain ⟨w, hw⟩ := List.mem_iff_get?.1 hc
    exact .cons (depedge_edge he hu hw) (ih hw hv)

theorem gpath_deppath {ps : List Plugin} :
    ∀ {u v : Nat}, GPath (buildGraph ps) u v →
      ∃ a b, (buildGraph ps).nodes.get? u = some a ∧
        (buildGraph ps).nodes.get? v = some b ∧ DepPath ps a b := by
  intro u v hpath
  induction hpath with
  | @single u v he =>
    obtain ⟨a, b, hu, hv, hde⟩ := edge_depedge he
    exact ⟨a, b, hu, hv, .single hde⟩
  | @cons u w v he hrest ih =>
    obtain ⟨a, c, hu, hw, hde⟩ := edge_depedge he
    obtain ⟨c2, b, hw2, hv, hdp⟩ := ih
    have hcc : c = c2 := by
      rw [hw] at hw2
      exact Option.some.inj hw2
    subst hcc
    exact ⟨a, b, hu, hv, .cons hde hdp⟩

theorem depcycle_hascycle {ps : List Plugin} (h : ∃ a, DepCycle ps a) :
    HasCycleG (buildGraph ps) := by
  obtain ⟨a, hcyc⟩ := h
  have ha : a ∈ (buildGraph ps).nodes := by
    cases hcyc with
    | single he =>
      obtain ⟨p, hp, _, hd⟩ := he
      exact (mem_buildGraph ps a).2 ⟨p, hp, .inr hd⟩
    | cons he _ =>
      obtain ⟨p, hp, _, hd⟩ := he
      exact (mem_buildGraph ps a).2 ⟨p, hp, .inr hd⟩
  obtain ⟨u, hu⟩ := List.mem_iff_get?.1 ha
  exact ⟨u, deppath_gpath hcyc hu hu⟩

theorem oncycle_depcycle {ps : List Plugin} {x : Nat}
    (h : OnCycleG (buildGraph ps) x) :
    ∃ a, (buildGraph ps).nodes.get? x = some a ∧ DepCycle ps a := by
  obtain ⟨a, b, hx1, hx2, hdp⟩ := gpath_deppath h
  have hab : a = b := by
    rw [hx1] at hx2
    exact Option.some.inj hx2
  subst hab
  exact ⟨a, hx1, hdp⟩

/-! What loading a list of plugins leaves in the manager. -/

theorem lookup_cons (n : String) (i : Nat) (idx : List (String × Nat)) (a : String) :
    lookupName ((n, i) :: idx) a = if n = a then some i else lookupName idx a := by
  by_cases h : n = a
  · simp [lookupName, List.find?, h]
  · have hbeq : (n == a) = false := by simp [h]
    simp [lookupName, List.find?, hbeq, h]

theorem loadFold_spec :
    ∀ (L : List (Nat × Plugin)) (m0 : Manager),
      (L.foldl (fun m p => (loadPlugin m (.ok (p.1, p.2))).1) m0).plugins =
        m0.plugins ++ L.map (·.2) ∧
      (∀ a, lookupName
          (L.foldl (fun m p => (loadPlugin m (.ok (p.1, p.2))).1) m0).nameIdx a = none ↔
        ((∀ q ∈ L.map (·.2), q.name ≠ a) ∧ lookupName m0.nameIdx a = none)) := by
  intro L
  induction L with
  | nil => intro m0; exact ⟨by simp, fun a => by simp⟩
  | cons ip L ih =>
    intro m0
    have hstep : (ip :: L).foldl (fun m p => (loadPlugin m (.ok (p.1, p.2))).1) m0 =
        L.foldl (fun m p => (loadPlugin m (.ok (p.1, p.2))).1)
          (loadPlugin m0 (.ok (ip.1, ip.2))).1 := rfl
    obtain ⟨ihp, ihl⟩ := ih (loadPlugin m0 (.ok (ip.1, ip.2))).1
    constructor
    · rw [hstep, ihp]
      show (m0.plugins ++ [ip.2]) ++ _ = _
      simp
    · intro a
      rw [hstep, ihl a]
      have hidx : (loadPlugin m0 (.ok (ip.1, ip.2))).1.nameIdx =
          (ip.2.name, m0.plugins.length) :: m0.nameIdx := rfl
      rw [hidx, lookup_cons]
      by_cases h : ip.2.name = a
      · simp [h]
      · simp only [if_neg h, List.map_cons, List.mem_cons]
        constructor
        · rintro ⟨h1, h2⟩
          refine ⟨fun q hq => ?_, h2⟩
          rcases hq with rfl | hq2
          · exact h
          · exact h1 q hq2
        · rintro ⟨h1, h2⟩
          exact ⟨fun q hq => h1 q (.inr hq), h2⟩

theorem mkManager_plugins (ps : List Plugin) : (mkManager ps).plugins = ps := by
  have h := (loadFold_spec ps.enum emptyManager).1
  simpa [mkManager, emptyManager, List.enum_map_snd] using h

theorem mkManager_lookup_none (ps : List Plugin) (a : String) :
    lookupName (mkManager ps).nameIdx a = none ↔ ∀ q ∈ ps, q.name ≠ a := by
  have h := (loadFold_spec ps.enum emptyManager).2 a
  rw [show (mkManager ps).nameIdx =
      (ps.enum.foldl (fun m p => (loadPlugin m (.ok (p.1, p.2))).1) emptyManager).nameIdx
    from rfl, h]
  simp [emptyManager, lookupName, List.enum_map_snd]

/-! The stage-building loop panics when a node's name is not indexed. -/

theorem buildStages_cons (idx : List (String × Nat)) (g : Graph) (y : Nat)
    (order : List Nat) (plugins : List Plugin) (stages : List (List Plugin)) :
    buildStages idx g (y :: order) plugins stages =
      match (g.nodes.get? y).bind (lookupName idx) with
      | none => .error (.missingName ((g.nodes.get? y).getD ""))
      | some i =>
        if i < plugins.length then
          buildStages idx g order (plugins.eraseIdx i)
            (stages ++ [[plugins.getD i default]])
        else .error (.indexOutOfBounds i) := rfl

theorem buildStages_error_of_bad {idx : List (String × Nat)} {g : Graph} {x : Nat}
    (hx : ((g.nodes.get? x).bind (lookupName idx)) = none) :
    ∀ (order : List Nat), x ∈ order → ∀ plugins stages,
      ∃ e, buildStages idx g order plugins stages = .error e := by
  intro order
  induction order with
  | nil => intro h; exact absurd h (List.not_mem_nil x)
  | cons y order ih =>
    intro hmem plugins stages
    cases hget : (g.nodes.get? y).bind (lookupName idx) with
    | none =>
      refine ⟨.missingName ((g.nodes.get? y).getD ""), ?_⟩
      rw [buildStages_cons, hget]
    | some i =>
      have hxy : x ≠ y := by
        rintro rfl
        rw [hx] at hget
        exact Option.noConfusion hget
      have hx_tail : x ∈ order := by
        rcases List.mem_cons.1 hmem with rfl | h2
        · exact absurd rfl hxy
        · exact h2
      by_cases hlt : i < plugins.length
      · obtain ⟨e, he⟩ := ih hx_tail (plugins.eraseIdx i)
          (stages ++ [[plugins.getD i default]])
        refine ⟨e, ?_⟩
        rw [buildStages_cons, hget]
        show (if i < plugins.length then
            buildStages idx g order (plugins.eraseIdx i)
              (stages ++ [[plugins.getD i default]])
          else Except.error (.indexOutOfBounds i)) = Except.error e
        rw [if_pos hlt]
        exact he
      · refine ⟨.indexOutOfBounds i, ?_⟩
        rw [buildStages_cons, hget]
        show (if i < plugins.length then
            buildStages idx g order (plugins.eraseIdx i)
              (stages ++ [[plugins.getD i default]])
          else Except.error (.indexOutOfBounds i)) = Except.error (.indexOutOfBounds i)
        rw [if_neg hlt]

/-! The remaining claims about `into_dispatcher`. -/

theorem intoDispatcher_eq (m : Manager) :
    intoDispatcher m =
      match toposort (buildGraph m.plugins) with
      | .error nx => .error (.cyclicDependency nx)
      | .ok order =>
        match buildStages m.nameIdx (buildGraph m.plugins) order m.plugins [] with
        | .error e => .error e
        | .ok stages => .ok { stages := stages, libraries := m.libraries } := rfl

/-- C2 (amended): whenever some loaded plugin declares a dependency name
that no loaded plugin carries, stage planning does not succeed: either the
toposort already panics, or the planner reaches the phantom node and its
`name_of_plugin[...]` lookup (or a subsequent `Vec::remove`) panics.  No
placeholder stage is produced and nothing is dispatched. -/
theorem phantom_dep_planning_fails (ps : List Plugin)
    (h : ∃ p ∈ ps, ∃ d ∈ p.deps, ∀ q ∈ ps, q.name ≠ d) :
    ∃ e, intoDispatcher (mkManager ps) = .error e := by
  obtain ⟨p, hp, d, hd, hnone⟩ := h
  rw [intoDispatcher_eq, mkManager_plugins]
  cases htp : toposort (buildGraph ps) with
  | error nx => exact ⟨.cyclicDependency nx, rfl⟩
  | ok order =>
    have hdmem : d ∈ (buildGraph ps).nodes := (mem_buildGraph ps d).2 ⟨p, hp, .inr hd⟩
    obtain ⟨x, hxi⟩ := List.mem_iff_get?.1 hdmem
    have hxlt : x < (buildGraph ps).nodes.length := (List.get?_eq_some.1 hxi).1
    have hxord : x ∈ order := (toposort_ok_facts (buildGraph_wf ps) htp).2.1 x hxlt
    have hbad : ((buildGraph ps).nodes.get? x).bind
        (lookupName (mkManager ps).nameIdx) = none := by
      rw [hxi]
      exact (mkManager_lookup_none ps d).2 hnone
    obtain ⟨e, he⟩ := buildStages_error_of_bad hbad order hxord ps []
    refine ⟨e, ?_⟩
    show (match buildStages (mkManager ps).nameIdx (buildGraph ps) order ps [] with
      | Except.error e => Except.error e
      | Except.ok stages =>
        Except.ok (Dispatcher.mk stages (mkManager ps).libraries)) =
      Except.error e
    rw [he]

/-- C2 (witness): the amended theorem applies to Scenario D itself, one
plugin `A` depending on the never-loaded name `"Z"`. -/
theorem phantom_dep_planning_fails_witness :
    (∃ p ∈ [Plugin.mk "A" ["Z"] 1], ∃ d ∈ p.deps,
      ∀ q ∈ [Plugin.mk "A" ["Z"] 1], q.name ≠ d) ∧
    ∃ e, intoDispatcher (mkManager [Plugin.mk "A" ["Z"] 1]) = .error e := by
  have h : ∃ p ∈ [Plugin.mk "A" ["Z"] 1], ∃ d ∈ p.deps,
      ∀ q ∈ [Plugin.mk "A" ["Z"] 1], q.name ≠ d := by decide
  exact ⟨h, phantom_dep_planning_fails _ h⟩

/-- C3: for every load order whose declared dependencies contain a cycle,
`into_dispatcher` fails with the `CyclicDependency` panic carrying a node
that really lies on a dependency cycle; the error is produced before any
stage is built, so no partial plan exists and nothing is dispatched. -/
theorem cyclic_deps_planning_fails (ps : List Plugin) (h : ∃ a, DepCycle ps a) :
    ∃ nx name, intoDispatcher (mkManager ps) = .error (.cyclicDependency nx) ∧
      (buildGraph ps).nodes.get? nx = some name ∧ DepCycle ps name := by
  have hcyc : HasCycleG (buildGraph ps) := depcycle_hascycle h
  obtain ⟨nx, htp⟩ := toposort_err_of_cycle (buildGraph_wf ps) hcyc
  obtain ⟨name, hname, hdc⟩ :=
    oncycle_depcycle (toposort_error_on_cycle (buildGraph_wf ps) htp)
  refine ⟨nx, name, ?_, hname, hdc⟩
  rw [intoDispatcher_eq, mkManager_plugins, htp]

/-- C3 (witness): the repository's own `cycle` test input, `A` and `B`
depending on each other. -/
theorem cyclic_deps_planning_fails_witness :
    (∃ a, DepCycle [Plugin.mk "A" ["B"] 1, Plugin.mk "B" ["A"] 2] a) ∧
    ∃ nx name,
      intoDispatcher (mkManager [Plugin.mk "A" ["B"] 1, Plugin.mk "B" ["A"] 2]) =
        .error (.cyclicDependency nx) ∧
      (buildGraph [Plugin.mk "A" ["B"] 1, Plugin.mk "B" ["A"] 2]).nodes.get? nx =
        some name ∧
      DepCycle [Plugin.mk "A" ["B"] 1, Plugin.mk "B" ["A"] 2] name := by
  have hAB : DepEdge [Plugin.mk "A" ["B"] 1, Plugin.mk "B" ["A"] 2] "A" "B" :=
    ⟨Plugin.mk "B" ["A"] 2, by simp, rfl, by simp⟩
  have hBA : DepEdge [Plugin.mk "A" ["B"] 1, Plugin.mk "B" ["A"] 2] "B" "A" :=
    ⟨Plugin.mk "A" ["B"] 1, by simp, rfl, by simp⟩
  have h : ∃ a, DepCycle [Plugin.mk "A" ["B"] 1, Plugin.mk "B" ["A"] 2] a :=
    ⟨"A", .cons hAB (.single hBA)⟩
  exact ⟨h, cyclic_deps_planning_fails _ h⟩

/-- C1: a concrete acyclic load order on which `into_dispatcher` does not
succeed: `A`, `B` independent and `C` depending on `"A"`, loaded in that
order.  The toposort succeeds (hence the dependency relation is provably
acyclic), but the stage loop panics with an out-of-bounds `Vec::remove`
because the indices stored in `name_of_plugin` were invalidated by the
earlier removals. -/
theorem acyclic_input_planning_panics :
    ¬ (∃ a, DepCycle [Plugin.mk "A" [] 1, Plugin.mk "B" [] 2, Plugin.mk "C" ["A"] 3] a) ∧
    intoDispatcher mBug = .error (.indexOutOfBounds 2) := by
  constructor
  · intro h
    exact (toposort_ok_facts
        (buildGraph_wf [Plugin.mk "A" [] 1, Plugin.mk "B" [] 2, Plugin.mk "C" ["A"] 3])
        (show toposort (buildGraph
            [Plugin.mk "A" [] 1, Plugin.mk "B" [] 2, Plugin.mk "C" ["A"] 3]) =
          .ok [1, 0, 2] from rfl)).2.2
      (depcycle_hascycle h)
  · rfl

end Sora
